import Mathlib

set_option maxHeartbeats 1000000

/- Shallow embedding of the resume-classification backend (backend/utils.py and
backend/main.py).  Text is modelled as `List Char`; all code paths of interest
operate on ASCII text, so Python's `str.lower`, `str.title`, `str.strip`, the
regex character classes and word boundaries are modelled at ASCII precision. -/

/-- ASCII lowercase table: Python `str.lower` restricted to ASCII input. -/
def lowChar : Char → Char
  | 'A' => 'a' | 'B' => 'b' | 'C' => 'c' | 'D' => 'd' | 'E' => 'e' | 'F' => 'f'
  | 'G' => 'g' | 'H' => 'h' | 'I' => 'i' | 'J' => 'j' | 'K' => 'k' | 'L' => 'l'
  | 'M' => 'm' | 'N' => 'n' | 'O' => 'o' | 'P' => 'p' | 'Q' => 'q' | 'R' => 'r'
  | 'S' => 's' | 'T' => 't' | 'U' => 'u' | 'V' => 'v' | 'W' => 'w' | 'X' => 'x'
  | 'Y' => 'y' | 'Z' => 'z' | c => c

/-- ASCII uppercase table: Python `str.upper` restricted to ASCII input. -/
def upChar : Char → Char
  | 'a' => 'A' | 'b' => 'B' | 'c' => 'C' | 'd' => 'D' | 'e' => 'E' | 'f' => 'F'
  | 'g' => 'G' | 'h' => 'H' | 'i' => 'I' | 'j' => 'J' | 'k' => 'K' | 'l' => 'L'
  | 'm' => 'M' | 'n' => 'N' | 'o' => 'O' | 'p' => 'P' | 'q' => 'Q' | 'r' => 'R'
  | 's' => 'S' | 't' => 'T' | 'u' => 'U' | 'v' => 'V' | 'w' => 'W' | 'x' => 'X'
  | 'y' => 'Y' | 'z' => 'Z' | c => c

/-- `str(text).lower()`. -/
def lowerL (s : List Char) : List Char := s.map lowChar

/-- Python whitespace (`str.strip` default set and regex `\s`, ASCII). -/
def pyWsp (c : Char) : Bool :=
  c == ' ' || c == '\t' || c == '\n' || c == '\r' || c == '\x0b' || c == '\x0c'

/-- Python `str.strip()`. -/
def pyStrip (s : List Char) : List Char :=
  ((s.dropWhile pyWsp).reverse.dropWhile pyWsp).reverse

def asciiLower (c : Char) : Bool := decide ('a' ≤ c) && decide (c ≤ 'z')

def asciiUpper (c : Char) : Bool := decide ('A' ≤ c) && decide (c ≤ 'Z')

/-- A cased character for `str.title` word-boundary tracking (ASCII letters). -/
def casedChar (c : Char) : Bool := asciiLower c || asciiUpper c

/-- Python `str.title`: uppercase a cased character that follows a non-cased
character, lowercase a cased character that follows a cased one.  The Boolean
argument tracks whether the previous character was cased. -/
def pyTitleAux : Bool → List Char → List Char
  | _, [] => []
  | prevCased, c :: rest =>
    if casedChar c then
      (if prevCased then lowChar c else upChar c) :: pyTitleAux true rest
    else c :: pyTitleAux false rest

/-- Python `str.title()`. -/
def pyTitle (s : List Char) : List Char := pyTitleAux false s

/-- `re.sub(r'([a-z])([A-Z])', r'\1 \2', s)`: insert a space between a lowercase
letter immediately followed by an uppercase one; scanning resumes after each
replaced (non-overlapping) match. -/
def insertSpaces : List Char → List Char
  | a :: b :: rest =>
    if asciiLower a && asciiUpper b then a :: ' ' :: b :: insertSpaces rest
    else a :: insertSpaces (b :: rest)
  | s => s

/-- Python `str.split` / `re.split` on single-character separators selected by `p`
(keeps empty pieces, as Python does). -/
def splitOnChar (p : Char → Bool) : List Char → List (List Char)
  | [] => [[]]
  | c :: rest =>
    let us := splitOnChar p rest
    if p c then [] :: us else (c :: us.headD []) :: us.tail

/-- `str(text).split('\n')` (utils.get_name). -/
def splitLines (s : List Char) : List (List Char) := splitOnChar (fun c => c == '\n') s

/-- `re.split(r'[.\n]', s)` (utils.get_education). -/
def splitUnits (s : List Char) : List (List Char) :=
  splitOnChar (fun c => c == '.' || c == '\n') s

/-- Python substring test `needle in hay`. -/
def substrIn (needle : List Char) : List Char → Bool
  | [] => needle.isEmpty
  | c :: rest => needle.isPrefixOf (c :: rest) || substrIn needle rest

/-- Python regex `\w` at ASCII precision: letter, digit or underscore. -/
def wch (c : Char) : Bool := asciiLower c || asciiUpper c || c.isDigit || c == '_'

/-! ## utils.get_email -/

/-- Character class `[\w.+-]` (local part of the email pattern). -/
def emailLocalChar (c : Char) : Bool := wch c || c == '.' || c == '+' || c == '-'

/-- Character class `[\w.-]` (domain part of the email pattern). -/
def emailDomainChar (c : Char) : Bool := wch c || c == '.' || c == '-'

/-- The backtracking target of `[\w.-]+\.\w+` inside a maximal `[\w.-]` run: the
rightmost position `q ≥ 1` holding `'.'` immediately followed by a `\w` character
(the greedy `+` gives back as little as possible). -/
def lastDomainDot (run : List Char) : Option Nat :=
  ((List.range run.length).filter fun q =>
    decide (1 ≤ q) && decide (run.getD q ' ' = '.') && wch (run.getD (q + 1) ' ')).getLast?

/-- One attempt of `\b[\w.+-]+@[\w.-]+\.\w+` at the current position.  `prevW`
records whether the character before this position is `\w` (for the `\b`
assertion).  The `[\w.+-]+` run cannot backtrack because `'@'` is outside the
class; the `[\w.-]+` run backtracks to the last dot followed by a word char. -/
def emailAt (prevW : Bool) (s : List Char) : Option (List Char) :=
  match s with
  | [] => none
  | c :: _ =>
    if prevW == wch c then none
    else
      let run1 := s.takeWhile emailLocalChar
      let rest1 := s.dropWhile emailLocalChar
      if run1.isEmpty then none
      else
        match rest1 with
        | '@' :: rest2 =>
          let run2 := rest2.takeWhile emailDomainChar
          match lastDomainDot run2 with
          | some q =>
            some (run1 ++ '@' :: (run2.take q ++ '.' :: (run2.drop (q + 1)).takeWhile wch))
          | none => none
        | _ => none

def findEmailAux : Bool → List Char → Option (List Char)
  | _, [] => none
  | prevW, c :: rest =>
    match emailAt prevW (c :: rest) with
    | some m => some m
    | none => findEmailAux (wch c) rest

/-- First match of `re.findall(r'\b[\w.+-]+@[\w.-]+\.\w+', str(text))`. -/
def findEmail (text : List Char) : Option (List Char) := findEmailAux false text

/-- utils.get_email: first email match, else the sentinel. -/
def get_email (text : List Char) : List Char := (findEmail text).getD ("Not Found".data)

/-! ## utils.get_phone -/

/-- Character class `[-\.\s]` (phone separators). -/
def sepChar (c : Char) : Bool := c == '-' || c == '.' || pyWsp c

/-- Exactly `n` digits (`\d{n}`), returning them and the rest of the input. -/
def exactDigits : Nat → List Char → Option (List Char × List Char)
  | 0, s => some ([], s)
  | _ + 1, [] => none
  | n + 1, c :: rest =>
    if c.isDigit then (exactDigits n rest).map (fun pr => (c :: pr.1, pr.2)) else none

/-- The two alternatives of the lazy optional separator `[-\.\s]??`, in the order
the regex engine tries them (empty first). -/
def optSepAlts (s : List Char) : List (List Char × List Char) :=
  ([], s) ::
    match s with
    | c :: rest => if sepChar c then [([c], rest)] else []
    | [] => []

/-- All parses of `\d{3}[-\.\s]??\d{3}[-\.\s]??\d{4}` at this position, in
backtracking priority order. -/
def alt1Parses (s : List Char) : List (List Char) :=
  (exactDigits 3 s).toList.flatMap fun pr1 =>
    (optSepAlts pr1.2).flatMap fun sp1 =>
      (exactDigits 3 sp1.2).toList.flatMap fun pr2 =>
        (optSepAlts pr2.2).flatMap fun sp2 =>
          (exactDigits 4 sp2.2).toList.map fun pr3 =>
            pr1.1 ++ sp1.1 ++ pr2.1 ++ sp2.1 ++ pr3.1

/-- All parses of `\(\d{3}\)\s*\d{3}[-\.\s]??\d{4}` at this position (the `\s*`
run cannot backtrack because whitespace is not a digit). -/
def alt2Parses (s : List Char) : List (List Char) :=
  match s with
  | '(' :: r =>
    (exactDigits 3 r).toList.flatMap fun pr1 =>
      match pr1.2 with
      | ')' :: r2 =>
        let ws := r2.takeWhile pyWsp
        let r3 := r2.dropWhile pyWsp
        (exactDigits 3 r3).toList.flatMap fun pr2 =>
          (optSepAlts pr2.2).flatMap fun sp2 =>
            (exactDigits 4 sp2.2).toList.map fun pr3 =>
              '(' :: (pr1.1 ++ ')' :: (ws ++ pr2.1 ++ sp2.1 ++ pr3.1))
      | _ => []
  | _ => []

/-- One attempt of the phone pattern at the current position: the left alternative
is tried (with all its backtracking) before the right one. -/
def phoneAt (s : List Char) : Option (List Char) := (alt1Parses s ++ alt2Parses s).head?

def findPhoneAux : List Char → Option (List Char)
  | [] => none
  | c :: rest =>
    match phoneAt (c :: rest) with
    | some m => some m
    | none => findPhoneAux rest

/-- First match of the phone regex of utils.get_phone. -/
def findPhone (text : List Char) : Option (List Char) := findPhoneAux text

/-- utils.get_phone: first phone match, else the sentinel. -/
def get_phone (text : List Char) : List Char := (findPhone text).getD ("Not Found".data)

/-! ## utils.get_name -/

/-- utils.get_name: first line whose strip is non-empty, stripped, title-cased,
then `re.sub(r'([a-z])([A-Z])', r'\1 \2', ·)`; the sentinel if no such line. -/
def get_name (text : List Char) : List Char :=
  match (splitLines text).find? (fun line => !(pyStrip line).isEmpty) with
  | some line => insertSpaces (pyTitle (pyStrip line))
  | none => "Not Found".data

/-! ## utils.get_education -/

/-- The fixed, ordered degree keyword list of utils.get_education. -/
def degrees : List (List Char) :=
  ["bachelor".data, "master".data, "phd".data, "diploma".data, "degree".data,
   "bsc".data, "msc".data, "ba".data, "ma".data, "b.sc".data, "m.sc".data]

/-- utils.get_education: the first keyword (in list order) contained in the
lowercased text selects the scan; the scan enumerates the `[.\n]`-split units of
the lowercased text and, at the first unit containing the keyword with length
under 200, returns the same-index unit of the original text, stripped and
title-cased.  Both `for` loops `break` after their first hit, so no later
keyword and no later unit is ever consulted. -/
def get_education (text : List Char) : List Char :=
  let tl := lowerL text
  match degrees.find? (fun d => substrIn d tl) with
  | none => "Not Found".data
  | some d =>
    let sl := splitUnits tl
    let so := splitUnits text
    match sl.enum.find? (fun pr => substrIn d pr.2 && decide (pr.2.length < 200)) with
    | some pr => pyTitle (pyStrip (so.getD pr.1 []))
    | none => "Not Found".data

/-! ## utils.get_experience -/

/-- Python `int` on a digit string. -/
def digitsToNat (ds : List Char) : Nat := ds.foldl (fun n c => n * 10 + (c.toNat - 48)) 0

/-- One attempt of `(\d+)\+?\s*(?:-\s*\d+)?\s*years?` at the current position,
returning the value of group 1.  Every quantifier here is deterministic: the
greedy `\d+` cannot give back (no later branch starts with a digit), `\+?` and
`\s*` cannot either, and if `-` is present the range group must succeed. -/
def expAt (s : List Char) : Option Nat :=
  let ds := s.takeWhile Char.isDigit
  if ds.isEmpty then none
  else
    let r1 := s.dropWhile Char.isDigit
    let r2 := match r1 with
      | '+' :: t => t
      | _ => r1
    let r3 := r2.dropWhile pyWsp
    let r4opt : Option (List Char) :=
      match r3 with
      | '-' :: t =>
        let t2 := t.dropWhile pyWsp
        if (t2.takeWhile Char.isDigit).isEmpty then none
        else some (t2.dropWhile Char.isDigit)
      | _ => some r3
    match r4opt with
    | none => none
    | some r4 =>
      if "year".data.isPrefixOf (r4.dropWhile pyWsp) then some (digitsToNat ds) else none

def findExperienceAux : List Char → Option Nat
  | [] => none
  | c :: rest =>
    match expAt (c :: rest) with
    | some n => some n
    | none => findExperienceAux rest

/-- utils.get_experience: group 1 of the first match on the lowercased text,
else 0. -/
def get_experience (text : List Char) : Nat := (findExperienceAux (lowerL text)).getD 0

/-! ## utils.get_skills -/

/-- The fixed, ordered skill keyword list of utils.get_skills. -/
def skillKeywords : List (List Char) :=
  ["python".data, "java".data, "javascript".data, "sql".data, "r".data, "c++".data,
   "c#".data, "machine learning".data, "deep learning".data, "data analysis".data,
   "statistics".data, "tableau".data, "power bi".data, "excel".data, "aws".data,
   "azure".data, "cloud".data, "git".data, "docker".data, "kubernetes".data,
   "tensorflow".data, "pytorch".data, "html".data, "css".data, "react".data,
   "angular".data, "node.js".data, "flask".data, "django".data]

/-- `\b` between two positions: exactly one side is a `\w` character (an absent
side counts as non-word). -/
def bdry (a b : Option Char) : Bool :=
  (match a with | some c => wch c | none => false) !=
  (match b with | some c => wch c | none => false)

/-- `re.search(r'\b' + re.escape(w) + r'\b', s) is not None`: `w` occurs literally
with a word boundary on each side.  `prev` is the character before the current
position. -/
def wholeWordAux (w : List Char) : Option Char → List Char → Bool
  | _, [] => false
  | prev, c :: rest =>
    (w.isPrefixOf (c :: rest) && bdry prev w.head?
      && bdry w.getLast? ((c :: rest).drop w.length).head?)
    || wholeWordAux w (some c) rest

def wholeWord (w s : List Char) : Bool := wholeWordAux w none s

/-- utils.get_skills: keywords found as whole words in the lowercased text, in
keyword-list order, comma-joined; the sentinel "None" if none found. -/
def get_skills (text : List Char) : List Char :=
  let tl := lowerL text
  let found := skillKeywords.filter (fun w => wholeWord w tl)
  if found.isEmpty then "None".data else List.intercalate (", ".data) found

/-! ## utils.extract_resume_info -/

structure ResumeInfo where
  name : List Char
  email : List Char
  phone : List Char
  education : List Char
  experience_years : Nat
  skills : List Char
deriving DecidableEq

/-- utils.extract_resume_info. -/
def extract_resume_info (text : List Char) : ResumeInfo :=
  { name := get_name text
    email := get_email text
    phone := get_phone text
    education := get_education text
    experience_years := get_experience text
    skills := get_skills text }

/-! ## main.predict_resume — feature encoding (lines 116-126) -/

/-- main.py line 116: the education value handed to the encoder — the extracted
education unless it is the sentinel "Not Found", which is replaced by the
lowercase "not found". -/
def educationEncoderArg (edu : List Char) : List Char :=
  if edu = "Not Found".data then "not found".data else edu

/-- main.py lines 117-122: the education column.  The pre-trained encoder is an
opaque artifact, modelled as a partial map from category strings to integer
codes (spec artifact boundary: it fails on categories unseen at build time,
modelled by `none`).  The `except ValueError` branch substitutes the single
zero column `np.array([[0]])`. -/
def encodeEducation (enc : List Char → Option Int) (edu : List Char) : Int :=
  match enc (educationEncoderArg edu) with
  | some code => code
  | none => 0

/-- main.py line 125: the skills string handed to the vectorizer — the extracted
skills unless they are the sentinel "None", which is replaced by the empty
string. -/
def skillsVectorizerArg (skills : List Char) : List Char :=
  if skills = "None".data then [] else skills

/-! ## main.predict_resume — role-name normalization (lines 137-140, 166-170) -/

/-- `role_raw.rsplit('_', 1)[0]` when `'_' in role_raw`, else the label itself:
strip the last underscore-delimited segment when an underscore is present. -/
def normalizeRole (s : List Char) : List Char :=
  if s.contains '_' then ((s.reverse.dropWhile (fun c => c != '_')).drop 1).reverse else s

/-! ## main.predict_resume — top-3 role ranking (lines 160-182) -/

/-- models.RoleMatch (probabilities are kept exact as rationals). -/
structure RoleMatch where
  role : List Char
  confidence : ℚ
deriving DecidableEq

/-- Ascending comparison on (probability, class index) pairs: probability
ascending, ties by class index ascending.  Sorting by this linear order models
`np.argsort` as a stable ascending sort of the probability vector. -/
def probIdxLe (p q : ℚ × Nat) : Prop := p.1 < q.1 ∨ (p.1 = q.1 ∧ p.2 ≤ q.2)

instance : DecidableRel probIdxLe :=
  fun p q => decidable_of_iff (p.1 < q.1 ∨ (p.1 = q.1 ∧ p.2 ≤ q.2)) Iff.rfl

instance : IsTotal (ℚ × Nat) probIdxLe where
  total p q := by
    rcases lt_trichotomy p.1 q.1 with h | h | h
    · exact Or.inl (Or.inl h)
    · rcases Nat.le_total p.2 q.2 with h2 | h2
      · exact Or.inl (Or.inr ⟨h, h2⟩)
      · exact Or.inr (Or.inr ⟨h.symm, h2⟩)
    · exact Or.inr (Or.inl h)

instance : IsTrans (ℚ × Nat) probIdxLe where
  trans p q r h1 h2 := by
    rcases h1 with h1 | ⟨h1e, h1i⟩
    · rcases h2 with h2 | ⟨h2e, _⟩
      · exact Or.inl (h1.trans h2)
      · exact Or.inl (h2e ▸ h1)
    · rcases h2 with h2 | ⟨h2e, h2i⟩
      · exact Or.inl (h1e ▸ h2)
      · exact Or.inr ⟨h1e.trans h2e, h1i.trans h2i⟩

/-- The probability vector paired with class indices. -/
def probPairs (probs : List ℚ) : List (ℚ × Nat) :=
  (List.range probs.length).map (fun i => (probs.getD i 0, i))

/-- `role_probabilities.argsort()`: class indices sorted by probability
ascending (stable, i.e. ties by class index ascending). -/
def argsortAsc (probs : List ℚ) : List Nat :=
  (List.insertionSort probIdxLe (probPairs probs)).map Prod.snd

/-- `role_probabilities.argsort()[-3:][::-1]`: the last three entries of the
ascending argsort, reversed — equivalently the first three entries of the
reversed argsort. -/
def top3Indices (probs : List ℚ) : List Nat := (argsortAsc probs).reverse.take 3

/-- The `for idx in top_3_indices` loop of main.py lines 164-182: normalize the
class label at each index, skip names already seen, append first occurrences
with the probability at that raw index, and `break` once three entries have
been collected.  The Python `seen_roles` set is modelled as the list of names
inserted so far. -/
def top3Go (classes : List (List Char)) (probs : List ℚ) :
    List Nat → List (List Char) → List RoleMatch → List RoleMatch
  | [], _, acc => acc
  | idx :: rest, seen, acc =>
    let roleName := normalizeRole (classes.getD idx [])
    let seen' := if roleName ∈ seen then seen else roleName :: seen
    let acc' := if roleName ∈ seen then acc
      else acc ++ [{ role := roleName, confidence := probs.getD idx 0 }]
    if 3 ≤ acc'.length then acc' else top3Go classes probs rest seen' acc'

/-- main.py lines 160-182: the `top_3_roles` list computed from the classifier's
class labels and probability vector. -/
def top3Roles (classes : List (List Char)) (probs : List ℚ) : List RoleMatch :=
  top3Go classes probs (top3Indices probs) [] []

/-! ## main.predict_resume — recommendation tier (lines 184-193) -/

/-- main.py lines 184-193: the recommendation string from the suitability flag
and the suitability confidence. -/
def recommendationText (isSuitable : Bool) (conf : ℚ) : List Char :=
  if isSuitable then
    if (0.8 : ℚ) ≤ conf then "Strong candidate match.".data
    else if (0.6 : ℚ) ≤ conf then "Good candidate match.".data
    else "Review candidate properly".data
  else "Not a good fit".data

/-! ## Spec-side definitions used by the claims -/

/-- Keep the first occurrence of each distinct element, in order. -/
def firstDedupAux {α : Type} [DecidableEq α] : List α → List α → List α
  | [], _ => []
  | a :: rest, seen =>
    if a ∈ seen then firstDedupAux rest seen else a :: firstDedupAux rest (a :: seen)

/-- First-occurrence de-duplication of a list. -/
def firstDedup {α : Type} [DecidableEq α] (l : List α) : List α := firstDedupAux l []

/-- Modelled from the claim wording of C4 (spec §4.2): try only the first degree
keyword, in the fixed list order, that occurs anywhere in the lowercased text;
pair the `[.\n]`-split units of the lowercase and original-case copies in
lockstep; return the first pair whose lowercase unit contains that keyword and
is shorter than 200 characters, as the original-case unit normalized
(stripped and title-cased, the normalization of spec §3); the sentinel with no
fallback to any later keyword if that scan finds nothing. -/
def specEducation (text : List Char) : List Char :=
  match (degrees.filter (fun d => substrIn d (lowerL text))).head? with
  | none => "Not Found".data
  | some d =>
    match ((splitUnits (lowerL text)).zip (splitUnits text)).find?
        (fun pr => substrIn d pr.1 && decide (pr.1.length < 200)) with
    | some pr => pyTitle (pyStrip pr.2)
    | none => "Not Found".data

/-- The tie-break order asserted by claim C3: whenever two classes carry equal
probability, the one with the smaller class index is visited first while
building the top-3 list. -/
def tiesFollowClassOrder (probs : List ℚ) : Prop :=
  (top3Indices probs).Pairwise fun i j => probs.getD i 0 = probs.getD j 0 → i < j

/-- A concrete education encoder used to witness the encoding claims. -/
def toyEncoder : List Char → Option Int :=
  fun s => if s = "not found".data then some 7 else none

/-! ## Claims -/

/-- C5: during feature encoding, an education category the encoder has never
seen does not propagate an error: the single zero column is substituted; and
the skills sentinel "None" is translated to the empty string before
vectorization. -/
theorem C5_encoding_fallbacks (enc : List Char → Option Int) (edu : List Char)
    (h : enc (educationEncoderArg edu) = none) :
    encodeEducation enc edu = 0 ∧ skillsVectorizerArg ("None".data) = [] := by
  constructor
  · unfold encodeEducation
    rw [h]
  · rfl

/-- Witness for C5 at a concrete unseen category and the always-failing
encoder. -/
theorem C5_witness :
    ((fun _ : List Char => (none : Option Int)) (educationEncoderArg ("Masters".data)) = none) ∧
    (encodeEducation (fun _ => none) ("Masters".data) = 0 ∧
      skillsVectorizerArg ("None".data) = []) :=
  ⟨rfl, C5_encoding_fallbacks (fun _ => none) ("Masters".data) rfl⟩

/-- C7: the recommendation tier is a deterministic function of the suitability
flag and confidence, with inclusive boundaries at 0.8 and 0.6 for the higher
tier, and "Not a good fit" whenever the flag is false, regardless of
confidence. -/
theorem C7_recommendation_tiers (b : Bool) (conf : ℚ) :
    (b = true → (0.8 : ℚ) ≤ conf →
      recommendationText b conf = "Strong candidate match.".data) ∧
    (b = true → (0.6 : ℚ) ≤ conf → conf < (0.8 : ℚ) →
      recommendationText b conf = "Good candidate match.".data) ∧
    (b = true → conf < (0.6 : ℚ) →
      recommendationText b conf = "Review candidate properly".data) ∧
    (b = false → recommendationText b conf = "Not a good fit".data) := by
  refine ⟨?_, ?_, ?_, ?_⟩
  · intro hb h8
    simp [recommendationText, hb, h8]
  · intro hb h6 h8
    simp [recommendationText, hb, h6, not_le.mpr h8]
  · intro hb h6
    have h8 : ¬ (0.8 : ℚ) ≤ conf := not_le.mpr (h6.trans (by norm_num))
    simp [recommendationText, hb, not_le.mpr h6, h8]
  · intro hb
    simp [recommendationText, hb]

/-- Witness for C7 at the two inclusive boundaries, below both, and with the
flag false. -/
theorem C7_witness :
    recommendationText true (0.8 : ℚ) = "Strong candidate match.".data ∧
    recommendationText true (0.6 : ℚ) = "Good candidate match.".data ∧
    recommendationText true (0 : ℚ) = "Review candidate properly".data ∧
    recommendationText false (1 : ℚ) = "Not a good fit".data :=
  ⟨(C7_recommendation_tiers true (0.8 : ℚ)).1 rfl (by norm_num),
   (C7_recommendation_tiers true (0.6 : ℚ)).2.1 rfl (by norm_num) (by norm_num),
   (C7_recommendation_tiers true (0 : ℚ)).2.2.1 rfl (by norm_num),
   (C7_recommendation_tiers false (1 : ℚ)).2.2.2 rfl⟩

/-- C8 counterexample: role-label normalization is NOT idempotent.  The label
"A_B_select" normalizes to "A_B", which still contains an underscore, so a
second normalization strips again ("A"): an already-normalized name is not
necessarily returned unchanged. -/
theorem C8_counterexample :
    normalizeRole (normalizeRole ("A_B_select".data)) ≠ normalizeRole ("A_B_select".data) := by
  decide

/-- C8 (amended): normalizing a role label that contains no underscore (an
already-plain role name) returns it unchanged; full idempotence fails because a
normalized label may itself still contain an underscore. -/
theorem C8_plain_names_fixed (s : List Char) (h : s.contains '_' = false) :
    normalizeRole s = s := by
  unfold normalizeRole
  simp only [h]
  rfl

/-- Witness for C8 at a concrete underscore-free role name. -/
theorem C8_witness :
    ("Data Analyst".data.contains '_' = false) ∧
    normalizeRole ("Data Analyst".data) = "Data Analyst".data :=
  ⟨by decide, C8_plain_names_fixed ("Data Analyst".data) (by decide)⟩

/-- C10: when the extracted education is the sentinel "Not Found", the encoder
is invoked with the lowercase "not found"; the encoded column is the encoder's
code for "not found" when that category is known and the zero fallback
otherwise; the sentinel text itself is never passed to the encoder. -/
theorem C10_not_found_encoding (enc : List Char → Option Int) (edu : List Char)
    (h : edu = "Not Found".data) :
    educationEncoderArg edu = "not found".data ∧
    (∀ c : Int, enc ("not found".data) = some c → encodeEducation enc edu = c) ∧
    (enc ("not found".data) = none → encodeEducation enc edu = 0) ∧
    (∀ e : List Char, educationEncoderArg e ≠ "Not Found".data) := by
  subst h
  refine ⟨rfl, ?_, ?_, ?_⟩
  · intro c hc
    simp [encodeEducation, educationEncoderArg, hc]
  · intro hn
    simp [encodeEducation, educationEncoderArg, hn]
  · intro e
    unfold educationEncoderArg
    split
    · decide
    · next hne => exact hne

/-- Witness for C10 with a concrete encoder that knows "not found" (code 7) and
with one that does not. -/
theorem C10_witness :
    encodeEducation toyEncoder ("Not Found".data) = 7 ∧
    encodeEducation (fun _ => none) ("Not Found".data) = 0 :=
  ⟨(C10_not_found_encoding toyEncoder ("Not Found".data) rfl).2.1 7 (by decide),
   (C10_not_found_encoding (fun _ => none) ("Not Found".data) rfl).2.2.1 rfl⟩

/-- C6: on any text with no email match, no phone match, no degree keyword, no
whole-word skill keyword and no "N year(s)" phrase, every extractor returns its
typed sentinel default — name from the first non-blank line (or its own
sentinel), email/phone/education "Not Found", experience 0, skills "None" —
and, all extractors being total functions, none of them raises: every profile
field is populated. -/
theorem C6_sentinel_defaults (text : List Char)
    (hemail : findEmail text = none)
    (hphone : findPhone text = none)
    (hdeg : ∀ d ∈ degrees, substrIn d (lowerL text) = false)
    (hskill : ∀ w ∈ skillKeywords, wholeWord w (lowerL text) = false)
    (hexp : findExperienceAux (lowerL text) = none) :
    extract_resume_info text =
      { name := get_name text
        email := "Not Found".data
        phone := "Not Found".data
        education := "Not Found".data
        experience_years := 0
        skills := "None".data } := by
  have he : get_email text = "Not Found".data := by
    unfold get_email
    rw [hemail]
    rfl
  have hp : get_phone text = "Not Found".data := by
    unfold get_phone
    rw [hphone]
    rfl
  have hx : get_experience text = 0 := by
    unfold get_experience
    rw [hexp]
    rfl
  have hfind : degrees.find? (fun d => substrIn d (lowerL text)) = none :=
    List.find?_eq_none.mpr (fun d hd => by rw [hdeg d hd]; exact Bool.false_ne_true)
  have hed : get_education text = "Not Found".data := by
    simp only [get_education, hfind]
  have hfilter : skillKeywords.filter (fun w => wholeWord w (lowerL text)) = [] :=
    List.filter_eq_nil_iff.mpr (fun w hw => by rw [hskill w hw]; exact Bool.false_ne_true)
  have hsk : get_skills text = "None".data := by
    simp only [get_skills, hfilter]
    rfl
  unfold extract_resume_info
  rw [he, hp, hx, hed, hsk]

/-- Witness for C6 at a concrete text containing none of the recognizable
patterns. -/
theorem C6_witness :
    (findEmail ("zq wv".data) = none) ∧
    (findPhone ("zq wv".data) = none) ∧
    (∀ d ∈ degrees, substrIn d (lowerL ("zq wv".data)) = false) ∧
    (∀ w ∈ skillKeywords, wholeWord w (lowerL ("zq wv".data)) = false) ∧
    (findExperienceAux (lowerL ("zq wv".data)) = none) ∧
    extract_resume_info ("zq wv".data) =
      { name := get_name ("zq wv".data)
        email := "Not Found".data
        phone := "Not Found".data
        education := "Not Found".data
        experience_years := 0
        skills := "None".data } :=
  ⟨by decide, by decide, by decide, by decide, by decide,
   C6_sentinel_defaults ("zq wv".data) (by decide) (by decide) (by decide) (by decide)
     (by decide)⟩

/-! ## Helper lemmas for C4 -/

lemma find?_eq_filter_head? {α : Type} (p : α → Bool) (l : List α) :
    l.find? p = (l.filter p).head? := by
  induction l with
  | nil => rfl
  | cons a t ih =>
    cases h : p a
    · rw [List.find?_cons_of_neg _ (by simp [h]), List.filter_cons_of_neg (by simp [h]), ih]
    · rw [List.find?_cons_of_pos _ h, List.filter_cons_of_pos h]
      rfl

lemma splitOnChar_map (p : Char → Bool) (f : Char → Char)
    (hf : ∀ c, p (f c) = p c) (t : List Char) :
    splitOnChar p (t.map f) = (splitOnChar p t).map (List.map f) := by
  induction t with
  | nil => rfl
  | cons c rest ih =>
    simp only [List.map_cons, splitOnChar, ih, hf c]
    cases hp : p c
    · simp only [Bool.false_eq_true, if_false]
      cases hrest : splitOnChar p rest <;> simp
    · simp

lemma lowChar_delim (c : Char) :
    ((lowChar c == '.') || (lowChar c == '\n')) = ((c == '.') || (c == '\n')) := by
  unfold lowChar
  split <;> rfl

lemma splitUnits_lowerL (t : List Char) :
    splitUnits (lowerL t) = (splitUnits t).map lowerL := by
  unfold splitUnits lowerL
  exact splitOnChar_map _ lowChar lowChar_delim t

lemma enumFrom_find?_zip {α : Type} (q : α → Bool) (d : α) :
    ∀ (xs ys : List α) (n : Nat), xs.length = ys.length →
      ((List.enumFrom n xs).find? (fun pr => q pr.2)).map (fun pr => ys.getD (pr.1 - n) d) =
      ((xs.zip ys).find? (fun pr => q pr.1)).map Prod.snd := by
  intro xs
  induction xs with
  | nil => intro ys n _; rfl
  | cons x xs' ih =>
    intro ys n h
    cases ys with
    | nil => simp at h
    | cons y ys' =>
      have h' : xs'.length = ys'.length := by simpa using h
      simp only [List.enumFrom_cons, List.zip_cons_cons, List.find?_cons]
      cases hq : q x
      · simp only [hq]
        have hmain := ih ys' (n + 1) h'
        cases hf : (List.enumFrom (n + 1) xs').find? (fun pr => q pr.2) with
        | none =>
          rw [hf] at hmain
          simpa using hmain
        | some pr =>
          rw [hf] at hmain
          have hge : n + 1 ≤ pr.1 :=
            List.le_fst_of_mem_enumFrom (List.mem_of_find?_eq_some hf)
          have hidx : pr.1 - n = (pr.1 - (n + 1)) + 1 := by omega
          simp only [Option.map_some'] at hmain ⊢
          rw [hidx]
          simpa using hmain
      · simp [hq, Nat.sub_self]

/-- The body of the education scan for a fixed keyword: the source's
enumerate-and-index-the-original-list loop agrees with the spec's
lockstep-zip formulation. -/
lemma specEducation_body_eq (text d : List Char) :
    (match (splitUnits (lowerL text)).enum.find?
        (fun pr => substrIn d pr.2 && decide (pr.2.length < 200)) with
      | some pr => pyTitle (pyStrip ((splitUnits text).getD pr.1 []))
      | none => "Not Found".data) =
    (match ((splitUnits (lowerL text)).zip (splitUnits text)).find?
        (fun pr => substrIn d pr.1 && decide (pr.1.length < 200)) with
      | some pr => pyTitle (pyStrip pr.2)
      | none => "Not Found".data) := by
  have hlen : (splitUnits (lowerL text)).length = (splitUnits text).length := by
    rw [splitUnits_lowerL, List.length_map]
  have hmain :
      (((splitUnits (lowerL text)).enum.find?
          (fun pr => substrIn d pr.2 && decide (pr.2.length < 200))).map
        (fun pr => (splitUnits text).getD (pr.1 - 0) [])) =
      ((((splitUnits (lowerL text)).zip (splitUnits text)).find?
          (fun pr => substrIn d pr.1 && decide (pr.1.length < 200))).map Prod.snd) :=
    enumFrom_find?_zip (fun u => substrIn d u && decide (u.length < 200)) []
      (splitUnits (lowerL text)) (splitUnits text) 0 hlen
  cases h1 : (splitUnits (lowerL text)).enum.find?
      (fun pr => substrIn d pr.2 && decide (pr.2.length < 200)) with
  | none =>
    rw [h1] at hmain
    cases h2 : ((splitUnits (lowerL text)).zip (splitUnits text)).find?
        (fun pr => substrIn d pr.1 && decide (pr.1.length < 200)) with
    | none => rfl
    | some pr2 =>
      rw [h2] at hmain
      simp at hmain
  | some pr =>
    rw [h1] at hmain
    cases h2 : ((splitUnits (lowerL text)).zip (splitUnits text)).find?
        (fun pr => substrIn d pr.1 && decide (pr.1.length < 200)) with
    | none =>
      rw [h2] at hmain
      simp at hmain
    | some pr2 =>
      rw [h2] at hmain
      simp only [Option.map_some'] at hmain
      have heq : (splitUnits text).getD pr.1 [] = pr2.2 := by
        have := Option.some.inj hmain
        simpa using this
      show pyTitle (pyStrip ((splitUnits text).getD pr.1 [])) = pyTitle (pyStrip pr2.2)
      rw [heq]

/-- C4: education extraction tries only the first degree keyword (in the fixed
keyword-list order) occurring anywhere in the lowercased text, scans the
`[.\n]`-split units for the first one shorter than 200 characters containing
that keyword, returns it normalized, and falls back to the sentinel with NO
fallback to any later keyword: `get_education` coincides with the
specification-side `specEducation`. -/
theorem C4_education_first_keyword_no_fallback (text : List Char) :
    get_education text = specEducation text := by
  simp only [get_education, specEducation]
  rw [find?_eq_filter_head? (fun d => substrIn d (lowerL text)) degrees]
  cases hh : (degrees.filter fun d => substrIn d (lowerL text)).head? with
  | none => rfl
  | some d => exact specEducation_body_eq text d

/-! ## Helper lemmas for the top-3 ranking claims -/

lemma mem_probPairs {probs : List ℚ} {p : ℚ × Nat} (h : p ∈ probPairs probs) :
    p.1 = probs.getD p.2 0 := by
  unfold probPairs at h
  obtain ⟨i, _, rfl⟩ := List.mem_map.mp h
  rfl

lemma mem_sortedPairs {probs : List ℚ} {p : ℚ × Nat}
    (h : p ∈ List.insertionSort probIdxLe (probPairs probs)) :
    p.1 = probs.getD p.2 0 :=
  mem_probPairs ((List.perm_insertionSort probIdxLe (probPairs probs)).mem_iff.mp h)

lemma nodup_snd_sortedPairs (probs : List ℚ) :
    ((List.insertionSort probIdxLe (probPairs probs)).map Prod.snd).Nodup := by
  have hbase : (probPairs probs).map Prod.snd = List.range probs.length := by
    unfold probPairs
    rw [List.map_map]
    calc (List.range probs.length).map (Prod.snd ∘ fun i => (probs.getD i 0, i))
        = (List.range probs.length).map id := List.map_congr_left (fun a _ => rfl)
      _ = List.range probs.length := List.map_id _
  have hperm : List.Perm ((List.insertionSort probIdxLe (probPairs probs)).map Prod.snd)
      ((probPairs probs).map Prod.snd) :=
    (List.perm_insertionSort probIdxLe (probPairs probs)).map Prod.snd
  rw [hperm.nodup_iff, hbase]
  exact List.nodup_range _

lemma argsort_values_pairwise (probs : List ℚ) :
    ((argsortAsc probs).map (fun i => probs.getD i 0)).Pairwise (· ≤ ·) := by
  unfold argsortAsc
  rw [List.map_map]
  have hcong :
      (List.insertionSort probIdxLe (probPairs probs)).map
          ((fun i => probs.getD i 0) ∘ Prod.snd) =
      (List.insertionSort probIdxLe (probPairs probs)).map Prod.fst :=
    List.map_congr_left (fun p hp => (mem_sortedPairs hp).symm)
  rw [hcong]
  exact List.pairwise_map.mpr
    ((List.sorted_insertionSort probIdxLe (probPairs probs)).imp
      (fun h => h.elim le_of_lt (fun h2 => le_of_eq h2.1)))

lemma top3_values_pairwise (probs : List ℚ) :
    ((top3Indices probs).map (fun i => probs.getD i 0)).Pairwise (fun a b => b ≤ a) := by
  unfold top3Indices
  rw [List.map_take, List.map_reverse]
  apply List.Pairwise.sublist (List.take_sublist _ _)
  rw [List.pairwise_reverse]
  exact argsort_values_pairwise probs

lemma top3_ties_pairwise (probs : List ℚ) :
    (top3Indices probs).Pairwise fun i j => probs.getD i 0 = probs.getD j 0 → j < i := by
  have hsorted : (List.insertionSort probIdxLe (probPairs probs)).Pairwise probIdxLe :=
    List.sorted_insertionSort probIdxLe (probPairs probs)
  have hne : (List.insertionSort probIdxLe (probPairs probs)).Pairwise
      (fun p q : ℚ × Nat => p.2 ≠ q.2) :=
    List.pairwise_map.mp (nodup_snd_sortedPairs probs)
  have hS : (List.insertionSort probIdxLe (probPairs probs)).Pairwise
      (fun p q : ℚ × Nat => probs.getD p.2 0 = probs.getD q.2 0 → p.2 < q.2) := by
    refine (hsorted.and hne).imp_of_mem ?_
    intro a b ha hb hab heq
    have h1 : a.1 = b.1 := by rw [mem_sortedPairs ha, mem_sortedPairs hb, heq]
    rcases hab.1 with hlt | ⟨_, hle⟩
    · exact absurd h1 hlt.ne
    · exact lt_of_le_of_ne hle hab.2
  have hidx : ((List.insertionSort probIdxLe (probPairs probs)).map Prod.snd).Pairwise
      (fun i j => probs.getD i 0 = probs.getD j 0 → i < j) :=
    List.pairwise_map.mpr hS
  unfold top3Indices argsortAsc
  apply List.Pairwise.sublist (List.take_sublist _ _)
  rw [List.pairwise_reverse]
  exact hidx.imp (fun h heq => h heq.symm)

/-- The top-3 walk with the `break` removed; since at most three indices are
ever walked, it agrees with `top3Go` (proved below). -/
def top3Walk (classes : List (List Char)) (probs : List ℚ) :
    List Nat → List (List Char) → List RoleMatch → List RoleMatch
  | [], _, acc => acc
  | idx :: rest, seen, acc =>
    let roleName := normalizeRole (classes.getD idx [])
    if roleName ∈ seen then top3Walk classes probs rest seen acc
    else top3Walk classes probs rest (roleName :: seen)
      (acc ++ [{ role := roleName, confidence := probs.getD idx 0 }])

lemma top3Go_eq_walk (classes : List (List Char)) (probs : List ℚ) :
    ∀ (idxs : List Nat) (seen : List (List Char)) (acc : List RoleMatch),
      idxs.length + acc.length ≤ 3 →
      top3Go classes probs idxs seen acc = top3Walk classes probs idxs seen acc := by
  intro idxs
  induction idxs with
  | nil => intro seen acc _; rfl
  | cons idx rest ih =>
    intro seen acc h
    simp only [List.length_cons] at h
    simp only [top3Go, top3Walk]
    by_cases hmem : normalizeRole (classes.getD idx []) ∈ seen
    · simp only [if_pos hmem]
      have hlt : ¬ 3 ≤ acc.length := by omega
      rw [if_neg hlt]
      exact ih seen acc (by omega)
    · simp only [if_neg hmem]
      split
      · next h3 =>
        cases rest with
        | nil => rfl
        | cons a t =>
          exfalso
          simp only [List.length_append, List.length_cons, List.length_nil] at h3 h
          omega
      · next h3 =>
        refine ih _ _ ?_
        simp only [List.length_append, List.length_cons, List.length_nil]
        omega

lemma top3Walk_map_role (classes : List (List Char)) (probs : List ℚ) :
    ∀ (idxs : List Nat) (seen : List (List Char)) (acc : List RoleMatch),
      (top3Walk classes probs idxs seen acc).map (fun m => m.role) =
        acc.map (fun m => m.role) ++
          firstDedupAux (idxs.map fun i => normalizeRole (classes.getD i [])) seen := by
  intro idxs
  induction idxs with
  | nil => intro seen acc; simp [top3Walk, firstDedupAux]
  | cons idx rest ih =>
    intro seen acc
    simp only [top3Walk, List.map_cons, firstDedupAux]
    by_cases hmem : normalizeRole (classes.getD idx []) ∈ seen
    · simp only [if_pos hmem]
      exact ih seen acc
    · simp only [if_neg hmem]
      rw [ih]
      simp

lemma top3Walk_invariants (classes : List (List Char)) (probs : List ℚ) :
    ∀ (idxs : List Nat) (seen : List (List Char)) (acc : List RoleMatch),
      (∀ m ∈ acc, m.role ∈ seen) →
      ((acc.map fun m => m.role).Nodup) →
      ((acc.map fun m => m.confidence).Pairwise fun a b => b ≤ a) →
      (∀ m ∈ acc, ∀ i ∈ idxs, probs.getD i 0 ≤ m.confidence) →
      ((idxs.map fun i => probs.getD i 0).Pairwise fun a b => b ≤ a) →
      (((top3Walk classes probs idxs seen acc).map fun m => m.role).Nodup ∧
        (((top3Walk classes probs idxs seen acc).map fun m => m.confidence).Pairwise
          fun a b => b ≤ a) ∧
        (top3Walk classes probs idxs seen acc).length ≤ acc.length + idxs.length) := by
  intro idxs
  induction idxs with
  | nil =>
    intro seen acc _ h2 h3 _ _
    exact ⟨h2, h3, by simp [top3Walk]⟩
  | cons idx rest ih =>
    intro seen acc h1 h2 h3 h4 h5
    rw [List.map_cons] at h5
    have hhead := (List.pairwise_cons.mp h5).1
    have htail := (List.pairwise_cons.mp h5).2
    simp only [top3Walk]
    by_cases hmem : normalizeRole (classes.getD idx []) ∈ seen
    · simp only [if_pos hmem]
      have := ih seen acc h1 h2 h3
        (fun m hm i hi => h4 m hm i (List.mem_cons_of_mem idx hi)) htail
      exact ⟨this.1, this.2.1, this.2.2.trans (by simp only [List.length_cons]; omega)⟩
    · simp only [if_neg hmem]
      have hh : ∀ i ∈ rest, probs.getD i 0 ≤ probs.getD idx 0 := fun i hi =>
        hhead (probs.getD i 0) (List.mem_map_of_mem (fun i => probs.getD i 0) hi)
      have h1' : ∀ m ∈ acc ++
          [RoleMatch.mk (normalizeRole (classes.getD idx [])) (probs.getD idx 0)],
          m.role ∈ normalizeRole (classes.getD idx []) :: seen := by
        intro m hm
        rcases List.mem_append.mp hm with hm | hm
        · exact List.mem_cons_of_mem _ (h1 m hm)
        · simp only [List.mem_singleton] at hm
          subst hm
          exact List.mem_cons_self _ _
      have h2' : (((acc ++
          [RoleMatch.mk (normalizeRole (classes.getD idx [])) (probs.getD idx 0)]).map
            fun m => m.role)).Nodup := by
        rw [List.map_append]
        refine List.Nodup.append h2 (by simp) ?_
        intro a ha hb
        simp only [List.map_cons, List.map_nil, List.mem_singleton] at hb
        have hs : a ∈ seen := by
          obtain ⟨m, hm, rfl⟩ := List.mem_map.mp ha
          exact h1 m hm
        rw [hb] at hs
        exact hmem hs
      have h3' : (((acc ++
          [RoleMatch.mk (normalizeRole (classes.getD idx [])) (probs.getD idx 0)]).map
            fun m => m.confidence)).Pairwise (fun a b => b ≤ a) := by
        rw [List.map_append, List.pairwise_append]
        refine ⟨h3, by simp, ?_⟩
        intro a ha b hb
        simp only [List.map_cons, List.map_nil, List.mem_singleton] at hb
        obtain ⟨m, hm, rfl⟩ := List.mem_map.mp ha
        rw [hb]
        exact h4 m hm idx (List.mem_cons_self _ _)
      have h4' : ∀ m ∈ acc ++
          [RoleMatch.mk (normalizeRole (classes.getD idx [])) (probs.getD idx 0)],
          ∀ i ∈ rest, probs.getD i 0 ≤ m.confidence := by
        intro m hm i hi
        rcases List.mem_append.mp hm with hm | hm
        · exact h4 m hm i (List.mem_cons_of_mem idx hi)
        · simp only [List.mem_singleton] at hm
          subst hm
          exact hh i hi
      have := ih (normalizeRole (classes.getD idx []) :: seen) _ h1' h2' h3' h4' htail
      refine ⟨this.1, this.2.1, ?_⟩
      refine this.2.2.trans ?_
      simp only [List.length_append, List.length_cons, List.length_nil]
      omega

lemma top3Indices_length_le (probs : List ℚ) : (top3Indices probs).length ≤ 3 := by
  unfold top3Indices
  rw [List.length_take]
  exact min_le_left _ _

/-- C9: for every classifier output (any class-label list and probability
vector), the top-3 role list contains no duplicate normalized role names, has
length at most 3, and its recorded confidences — the probabilities of each
role's representative (first-seen) raw label — are in descending (non-strictly
decreasing) order. -/
theorem C9_top3_nodup_le3_sorted (classes : List (List Char)) (probs : List ℚ) :
    ((top3Roles classes probs).map fun m => m.role).Nodup ∧
    (top3Roles classes probs).length ≤ 3 ∧
    ((top3Roles classes probs).map fun m => m.confidence).Pairwise (fun a b => b ≤ a) := by
  have hlen3 := top3Indices_length_le probs
  unfold top3Roles
  rw [top3Go_eq_walk classes probs _ [] [] (by simpa using hlen3)]
  have hinv := top3Walk_invariants classes probs (top3Indices probs) [] []
    (by simp) (by simp) (by simp) (by simp) (top3_values_pairwise probs)
  refine ⟨hinv.1, ?_, hinv.2.1⟩
  have := hinv.2.2
  simp only [List.length_nil, Nat.zero_add] at this
  exact this.trans hlen3

/-- C1 counterexample: with classes `["A_select","A_reject","A_hold","B","C"]`
and probabilities `[0.30, 0.25, 0.20, 0.15, 0.10]`, the classifier has three
distinct normalized role names (A, B, C), yet the returned list is just
`[A at 0.30]` — one entry, not three — because the walk covers only the three
highest-probability RAW classes, which all collapse to A.  The claim's "fewer
than 3 entries only if the classifier has fewer than 3 distinct normalized role
names" is therefore false. -/
theorem C1_counterexample :
    (top3Roles
        ["A_select".data, "A_reject".data, "A_hold".data, "B".data, "C".data]
        [(⟨3, 10, by decide, by decide⟩ : ℚ), ⟨1, 4, by decide, by decide⟩,
         ⟨1, 5, by decide, by decide⟩, ⟨3, 20, by decide, by decide⟩,
         ⟨1, 10, by decide, by decide⟩]).length = 1 ∧
    (firstDedup
        ((["A_select".data, "A_reject".data, "A_hold".data, "B".data, "C".data]).map
          normalizeRole)).length = 3 := by
  constructor
  · decide
  · decide

/-- C1 (amended): the top-3 list is built by walking only the three
highest-probability raw classes (the reversed tail of the stable ascending
argsort), keeping the first occurrence of each distinct normalized role name
among those at most three labels; its role column is exactly the
first-occurrence dedup of the normalized labels at the top-3 raw indices, so it
has fewer than 3 entries exactly when those at most three raw labels have fewer
than 3 distinct normalized names — even if the classifier as a whole has 3 or
more distinct roles. -/
theorem C1_top3_walks_only_top3_raw (classes : List (List Char)) (probs : List ℚ) :
    (top3Roles classes probs).map (fun m => m.role) =
      firstDedup ((top3Indices probs).map fun i => normalizeRole (classes.getD i [])) ∧
    (top3Roles classes probs).length =
      (firstDedup ((top3Indices probs).map fun i =>
        normalizeRole (classes.getD i []))).length := by
  have hlen3 := top3Indices_length_le probs
  unfold top3Roles
  rw [top3Go_eq_walk classes probs _ [] [] (by simpa using hlen3)]
  have h1 := top3Walk_map_role classes probs (top3Indices probs) [] []
  constructor
  · simpa [firstDedup] using h1
  · have h2 := congrArg List.length h1
    simp only [List.length_map, List.map_nil, List.nil_append] at h2
    simpa [firstDedup] using h2

/-- C3 counterexample: with two classes of equal probability 1/2, the top-3
walk visits class 1 before class 0 — the reverse of the classifier's internal
class ordering — because `argsort()[-3:][::-1]` reverses the stable ascending
argsort, flipping the order of tied classes. -/
theorem C3_counterexample :
    ¬ tiesFollowClassOrder
        [(⟨1, 2, by decide, by decide⟩ : ℚ), ⟨1, 2, by decide, by decide⟩] := by
  intro h
  unfold tiesFollowClassOrder at h
  have ht : top3Indices
      [(⟨1, 2, by decide, by decide⟩ : ℚ), ⟨1, 2, by decide, by decide⟩] = [1, 0] := by
    decide
  rw [ht] at h
  have h0 := (List.pairwise_cons.mp h).1 0 (by simp)
  have h1 : (1 : Nat) < 0 := h0 (by decide)
  omega

/-- C3 (amended): under the stable ascending argsort model of `np.argsort`,
ties in probability are visited in DESCENDING class-index order (the reverse of
the classifier's internal class ordering), because the ascending argsort is
reversed; no other tie-break is applied. -/
theorem C3_ties_reverse_class_order (probs : List ℚ) :
    (top3Indices probs).Pairwise fun i j => probs.getD i 0 = probs.getD j 0 → j < i :=
  top3_ties_pairwise probs

/-! ## The boundary-inserting regex of get_name is dead code after title() -/

lemma char_upper_mem (c : Char) (h : asciiUpper c = true) :
    c ∈ ['A', 'B', 'C', 'D', 'E', 'F', 'G', 'H', 'I', 'J', 'K', 'L', 'M',
         'N', 'O', 'P', 'Q', 'R', 'S', 'T', 'U', 'V', 'W', 'X', 'Y', 'Z'] := by
  unfold asciiUpper at h
  simp only [Bool.and_eq_true, decide_eq_true_eq] at h
  have hn1 : 65 ≤ c.toNat := h.1
  have hn2 : c.toNat ≤ 90 := h.2
  interval_cases hh : c.toNat <;> rw [← Char.ofNat_toNat c, hh] <;> decide

lemma asciiUpper_lowChar (c : Char) : asciiUpper (lowChar c) = false := by
  unfold lowChar
  split
  · decide
  · decide
  · decide
  · decide
  · decide
  · decide
  · decide
  · decide
  · decide
  · decide
  · decide
  · decide
  · decide
  · decide
  · decide
  · decide
  · decide
  · decide
  · decide
  · decide
  · decide
  · decide
  · decide
  · decide
  · decide
  · decide
  · cases hu : asciiUpper c
    · rfl
    · have hmem := char_upper_mem c hu
      fin_cases hmem <;> simp_all

lemma pyTitleAux_true_head (s : List Char) :
    ∀ c, (pyTitleAux true s).head? = some c → asciiUpper c = false := by
  cases s with
  | nil => intro c hc; simp [pyTitleAux] at hc
  | cons a rest =>
    intro c hc
    by_cases ha : casedChar a = true
    · simp only [pyTitleAux, if_pos ha, if_pos rfl, List.head?_cons] at hc
      obtain rfl := Option.some.inj hc
      exact asciiUpper_lowChar a
    · simp only [pyTitleAux, if_neg ha, List.head?_cons] at hc
      obtain rfl := Option.some.inj hc
      unfold casedChar at ha
      simp only [Bool.or_eq_true, not_or, Bool.not_eq_true] at ha
      exact ha.2

lemma pyTitleAux_chain (s : List Char) :
    ∀ pc : Bool, (pyTitleAux pc s).Chain' (fun a b => (asciiLower a && asciiUpper b) = false) := by
  induction s with
  | nil => intro pc; simp [pyTitleAux]
  | cons a rest ih =>
    intro pc
    by_cases ha : casedChar a = true
    · simp only [pyTitleAux, if_pos ha]
      refine List.chain'_cons'.mpr ⟨?_, ih true⟩
      intro b hb
      have hub := pyTitleAux_true_head rest b (Option.mem_def.mp hb)
      simp [hub]
    · simp only [pyTitleAux, if_neg ha]
      refine List.chain'_cons'.mpr ⟨?_, ih false⟩
      intro b _
      unfold casedChar at ha
      simp only [Bool.or_eq_true, not_or, Bool.not_eq_true] at ha
      simp [ha.1]

lemma insertSpaces_id : ∀ l : List Char,
    l.Chain' (fun a b => (asciiLower a && asciiUpper b) = false) → insertSpaces l = l := by
  intro l
  induction l with
  | nil => intro _; rfl
  | cons a t ih =>
    intro h
    cases t with
    | nil => rfl
    | cons b rest =>
      rw [List.chain'_cons] at h
      simp only [insertSpaces, h.1]
      simp only [Bool.false_eq_true, if_false]
      exact congrArg (a :: ·) (ih h.2)

/-- On any title-cased string no lowercase letter is immediately followed by an
uppercase one, so the boundary-inserting substitution of get_name never
changes its input. -/
lemma insertSpaces_pyTitle (s : List Char) : insertSpaces (pyTitle s) = pyTitle s :=
  insertSpaces_id (pyTitle s) (pyTitleAux_chain s false)

/-- C2: the spec claims a first line of concatenated capitalized tokens such as
"JohnSmith" is returned with word boundaries restored ("John Smith"), and the
code comments state the same intent ("Add space before capital letters if
missing"), but `get_name` applies `str.title()` BEFORE the boundary-inserting
regex; `title()` lowercases every interior capital, so the regex can never fire
on any input (third conjunct) and "JohnSmith" comes back as "Johnsmith"
(first conjunct evaluates the code at the failing input). -/
theorem C2_title_defeats_boundary_regex :
    get_name ("JohnSmith\njohn.smith@email.com".data) = "Johnsmith".data ∧
    "Johnsmith".data ≠ "John Smith".data ∧
    (∀ s : List Char, insertSpaces (pyTitle s) = pyTitle s) :=
  ⟨by decide, by decide, insertSpaces_pyTitle⟩

/-- Slicing identity documenting `top3Indices`: the reverse-then-take-3 form
used there is exactly Python's `a[-3:][::-1]` (the last three entries of the
ascending argsort, in reversed order). -/
lemma top3Indices_eq_last_three_reversed (probs : List ℚ) :
    top3Indices probs =
      ((argsortAsc probs).drop ((argsortAsc probs).length - 3)).reverse := by
  unfold top3Indices
  exact List.take_reverse
